import Mathlib

/-! Vocabulary dictionary (`vocab/vocab.go`).

A shallow embedding of the Go package `vocab`: the type `Dict`, its constructors `New` and
`FromFile`, and its methods `Add`, `Index`, `Token`, `HasIdx`, `HasToken`, `Size`.

Modelling conventions.

* A Go `string` is a Lean `String` (text, as the file format of the package prescribes).
* `Idx` is `int32`. Its values are kept in `Int`; the conversion `Idx(n)` of a Go `int` is
  `toIdx`, which keeps the low 32 bits in two's complement.
* A Go `int` that holds a length or a position is a `Nat`.
* A `map[string]Idx` is either nil or a list of entries in which no key occurs twice. The order
  of that list carries no meaning: a `range` over the map may visit the entries in any order,
  so the two methods that range over the map take the visiting order as an argument.
* A Go `error` is `Option String`: `none` is `nil`, `some msg` an error with that message.
* A run-time panic is the result `none` of an operation that returns an `Option`.
-/

namespace Vocab

/-! ## Data model -/

/-- Idx is the Go type `Idx int32`; values are stored as integers. -/
abbrev Idx := Int

/-- The Go conversion `Idx(n)` of an `int`: the low 32 bits of `n`, read in two's complement. -/
def toIdx (n : Int) : Idx := (n + 2147483648) % 4294967296 - 2147483648

/-- Map read `m[k]` on the entries of a map: the value stored under `k`, if any. -/
def lookup (k : String) : List (String × Idx) → Option Idx
  | [] => none
  | (k', v) :: rest => if k' = k then some v else lookup k rest

/-- Map write `m[k] = v` on the entries of a map: overwrite the entry of `k`, or add one. -/
def assign (k : String) (v : Idx) : List (String × Idx) → List (String × Idx)
  | [] => [(k, v)]
  | (k', v') :: rest => if k' = k then (k, v) :: rest else (k', v') :: assign k v rest

/-- Keys of a list of entries. -/
def keys (l : List (String × Idx)) : List String := l.map Prod.fst

theorem keys_assign (k : String) (v : Idx) (l : List (String × Idx)) :
    keys (assign k v l) = if k ∈ keys l then keys l else keys l ++ [k] := by
  induction l with
  | nil => simp [assign, keys]
  | cons e rest ih =>
    obtain ⟨k', v'⟩ := e
    unfold keys at ih
    by_cases h : k' = k
    · subst h; simp [assign, keys]
    · have h' : ¬ k = k' := fun e => h e.symm
      by_cases hin : k ∈ List.map Prod.fst rest
      · simp [assign, keys, h, h', ih, hin]
      · simp [assign, keys, h, h', ih, hin]

theorem nodup_keys_assign (k : String) (v : Idx) (l : List (String × Idx))
    (h : (keys l).Nodup) : (keys (assign k v l)).Nodup := by
  rw [keys_assign]
  split
  · exact h
  · rename_i hin
    exact List.Nodup.append h (List.nodup_singleton k) (by simpa using hin)

/-- A non-nil Go `map[string]Idx`: its entries, no key twice. -/
structure GoMap where
  entries : List (String × Idx)
  nodup : (keys entries).Nodup

/-- The map literal `map[string]Idx{}`, also the result of `make(map[string]Idx, n)`. -/
def GoMap.empty : GoMap := ⟨[], List.nodup_nil⟩

/-- Map write `m[k] = v` on a non-nil map. -/
def GoMap.set (m : GoMap) (k : String) (v : Idx) : GoMap :=
  ⟨assign k v m.entries, nodup_keys_assign k v m.entries m.nodup⟩

/-- Dict is `type Dict struct { tokens map[string]Idx }`; `none` is the nil map of `Dict{}`. -/
structure Dict where
  tokens : Option GoMap

/-- The entries of the dictionary's map; a nil map has none. -/
def Dict.entries (v : Dict) : List (String × Idx) :=
  match v.tokens with
  | none => []
  | some m => m.entries

/-- An order in which a `range v.tokens` loop may visit the entries of the map. -/
def RangeOrder (v : Dict) : Type := { o : List (String × Idx) // o.Perm v.entries }

/-! ## Operations -/

/-- The loop `for i, t := range tokens { v[t] = Idx(i) }` of `New`, from position `i` on. -/
def NewLoop (v : GoMap) (i : Nat) : List String → GoMap
  | [] => v
  | t :: rest => NewLoop (v.set t (toIdx i)) (i + 1) rest

/-- New returns a vocab dict from the given tokens. -/
def New (tokens : List String) : Dict :=
  ⟨some (NewLoop GoMap.empty 0 tokens)⟩

/-- HasToken returns true if vocab contains token: `_, ok := v.tokens[token]; return ok`. -/
def Dict.HasToken (v : Dict) (token : String) : Bool :=
  (lookup token v.entries).isSome

/-- Size returns the size of the vocabulary: `len(v.tokens)`. -/
def Dict.Size (v : Dict) : Nat := v.entries.length

/-- Add adds an item to the voc dict if not existing. The result is the dictionary after the
call together with the returned error; `none` is the panic of a write to a nil map. -/
def Dict.Add (v : Dict) (token : String) : Option (Dict × Option String) :=
  if v.HasToken token then
    some (v, some "Token string already existed.")
  else
    match v.tokens with
    | none => none
    | some m => some (⟨some (m.set token (toIdx v.Size))⟩, none)

/-- Index returns index of word token in vocab dict, with the error. -/
def Dict.Index (v : Dict) (token : String) : Idx × Option String :=
  match lookup token v.entries with
  | none => (toIdx (-1), some "Token string does not exist.")
  | some i => (i, none)

/-- The loop of `Token` and `HasIdx` over the entries in visiting order: the key of the first
entry whose value is `idx`. -/
def scan (idx : Idx) : List (String × Idx) → Option String
  | [] => none
  | (k, val) :: rest => if val = idx then some k else scan idx rest

/-! ### `fmt.Sprintf` with a format and no operands

`Token` returns `fmt.Sprintf(token)`: the token is the format string and there is no operand.
The definitions below follow `(*pp).doPrintf` of the Go standard library for an empty operand
list; the operand counter stays 0 throughout and every verb finds no operand. -/

/-- The function `parsenum` of package fmt over the characters up to its `end`: the number read,
whether a digit was read, and the characters left. On a number that is too large the position
jumps to `end`. -/
def parsenum (num : Nat) (isnum : Bool) : List Char → Nat × Bool × List Char
  | [] => (num, isnum, [])
  | c :: rest =>
    if 48 ≤ c.toNat ∧ c.toNat ≤ 57 then
      if num > 1000000 then (0, false, [])
      else parsenum (num * 10 + (c.toNat - 48)) true rest
    else (num, isnum, c :: rest)

/-- The function `parseArgNumber` of package fmt on a format text that starts with `[`: the
parsed index, the text after the bracket expression, and whether it was a number in brackets. -/
def parseArgNumber (cs : List Char) : Int × List Char × Bool :=
  if (String.mk cs).utf8ByteSize < 3 then (0, cs.drop 1, false)
  else
    let body := cs.drop 1
    if body.contains (Char.ofNat 93) then
      let inner := body.takeWhile (fun c => c != Char.ofNat 93)
      let after := (body.dropWhile (fun c => c != Char.ofNat 93)).drop 1
      match parsenum 0 false inner with
      | (width, true, []) => ((width : Int) - 1, after, true)
      | _ => (0, after, false)
    else (0, body, false)

/-- The method `argNumber` of package fmt with no operands: the text left, whether an index
was found, and the new value of `goodArgNum`. -/
def argNumber (cs : List Char) (good : Bool) : List Char × Bool × Bool :=
  match cs with
  | c :: _ =>
    if c = Char.ofNat 91 then
      match parseArgNumber cs with
      | (_, rest, ok) => (rest, ok, false)
    else (cs, false, good)
  | [] => (cs, false, good)

/-- Whether a character is one of the flags `#`, `0`, `+`, `-` and space. -/
def isFlag (c : Char) : Bool :=
  c = Char.ofNat 35 || c = Char.ofNat 48 || c = Char.ofNat 43 || c = Char.ofNat 45 ||
    c = Char.ofNat 32

/-- The width part of a verb in `doPrintf` with no operands: what is written to the buffer,
the text left, and the new values of `afterIndex` and `goodArgNum`. A `*` finds no operand. -/
def doWidth (cs : List Char) (afterIndex good : Bool) : List Char × List Char × Bool × Bool :=
  match cs with
  | c :: rest =>
    if c = Char.ofNat 42 then ("%!(BADWIDTH)".data, rest, false, good)
    else
      match parsenum 0 false cs with
      | (_, widPresent, r) =>
        ([], r, afterIndex, if afterIndex && widPresent then false else good)
  | [] => ([], [], afterIndex, good)

/-- The precision part of a verb in `doPrintf` with no operands: what is written to the
buffer, the text left, and the new values of `afterIndex` and `goodArgNum`. -/
def doPrecision (cs : List Char) (afterIndex good : Bool) :
    List Char × List Char × Bool × Bool :=
  match cs with
  | c :: rest =>
    if c = Char.ofNat 46 then
      match argNumber rest (if afterIndex then false else good) with
      | (d :: rest4, afterIndex4, good4) =>
        if d = Char.ofNat 42 then ("%!(BADPREC)".data, rest4, false, good4)
        else
          match parsenum 0 false (d :: rest4) with
          | (_, _, r) => ([], r, afterIndex4, good4)
      | ([], afterIndex4, good4) => ([], [], afterIndex4, good4)
    else ([], cs, afterIndex, good)
  | [] => ([], [], afterIndex, good)

/-- The end of a verb in `doPrintf` with no operands, on the text after width and precision:
what is written to the buffer and the text left. The verb `%` writes a percent sign, any other
verb finds no operand. -/
def doVerbChar (cs : List Char) (good : Bool) : List Char × List Char :=
  match cs with
  | [] => ("%!(NOVERB)".data, [])
  | verb :: rest =>
    if verb = Char.ofNat 37 then ([verb], rest)
    else if !good then ("%!".data ++ [verb] ++ "(BADINDEX)".data, rest)
    else ("%!".data ++ [verb] ++ "(MISSING)".data, rest)

/-- One verb of `doPrintf` with no operands, on the text after its `%`: what is written to the
buffer and the text left after the verb. -/
def doVerb (cs : List Char) : List Char × List Char :=
  match argNumber (cs.dropWhile isFlag) true with
  | (cs2, afterIndex2, good2) =>
    match doWidth cs2 afterIndex2 good2 with
    | (out3, cs3, afterIndex3, good3) =>
      match doPrecision cs3 afterIndex3 good3 with
      | (out5, cs5, afterIndex5, good5) =>
        match (if afterIndex5 then (cs5, afterIndex5, good5) else argNumber cs5 good5) with
        | (cs6, _, good6) =>
          match doVerbChar cs6 good6 with
          | (out7, rest) => (out3 ++ out5 ++ out7, rest)

/-- The format loop of `doPrintf` with no operands; every round consumes a `%`, so a fuel above
the length of the format is never used up. -/
def doPrintf : Nat → List Char → List Char
  | 0, _ => []
  | fuel + 1, format =>
    let text := format.takeWhile (fun c => c != Char.ofNat 37)
    match format.dropWhile (fun c => c != Char.ofNat 37) with
    | [] => text
    | _ :: afterPercent =>
      let (out, rest) := doVerb afterPercent
      text ++ out ++ doPrintf fuel rest

/-- The call `fmt.Sprintf(format)`, with no operands. -/
def Sprintf (format : String) : String :=
  String.mk (doPrintf (format.length + 1) format.data)

/-- Token get a token by given index, returns the empty string if not existing. The loop visits
the entries in `order`; the named result `token` starts as the empty string. -/
def Dict.Token (v : Dict) (order : RangeOrder v) (idx : Idx) : String :=
  Sprintf ((scan idx order.val).getD "")

/-- HasIdx returns true if the vocab contains a token for given index. The loop visits the
entries in `order`. -/
def Dict.HasIdx (v : Dict) (order : RangeOrder v) (idx : Idx) : Bool :=
  order.val.any (fun e => decide (e.2 = idx))

/-- What `os.Open` and the `bufio.Scanner` give `FromFile` for a path: either `os.Open` fails,
or the file opens and `scanner.Scan()` yields `lines` one by one before it returns false, with
`scanErr` the error (if any) that stopped it. -/
inductive FileRead where
  | openError (msg : String)
  | opened (lines : List String) (scanErr : Option String)

/-- The loop `for scanner.Scan() { voc.Add(scanner.Text()) }` of `FromFile`; the error that
`Add` returns is dropped. -/
def FromFileLoop (voc : Dict) : List String → Option Dict
  | [] => some voc
  | line :: rest =>
    match voc.Add line with
    | none => none
    | some (voc', _) => FromFileLoop voc' rest

/-- FromFile will read a newline delimited file into a Dict. -/
def FromFile : FileRead → Option (Dict × Option String)
  | FileRead.openError msg => some (⟨none⟩, some msg)
  | FileRead.opened lines _ =>
    match FromFileLoop ⟨some GoMap.empty⟩ lines with
    | none => none
    | some voc => some (voc, none)

/-! ## Large inputs

Token lists longer than `2^31`, used where the conversion to `int32` wraps around. -/

/-- The token made of `n` letters `a`. -/
def tokenA (n : Nat) : String := String.mk (List.replicate n (Char.ofNat 97))

/-- The `n` pairwise distinct tokens `tokenA 0`, ..., `tokenA (n - 1)`. -/
def manyTokens (n : Nat) : List String := (List.range n).map tokenA

/-! ## Specification-side notions -/

/-- The number of distinct strings in a list. -/
def distinctCount (lines : List String) : Nat := lines.toFinset.card

/-- The first-seen rank of `t` in `lines`, in the words of the specification: the number of
distinct lines that come before the first occurrence of `t`. -/
def firstSeenRank (lines : List String) (t : String) : Nat :=
  distinctCount (lines.take (lines.indexOf t))

/-! ## Callers of the package -/

/-- A caller making one `Add` call per token of the list, in order, on the same dictionary: the
dictionary after the last call and the error each call returned, in order. A panicking call
ends the run with `none`. -/
def AddSeq (v : Dict) : List String → Option (Dict × List (Option String))
  | [] => some (v, [])
  | t :: rest =>
    match v.Add t with
    | none => none
    | some (v1, err) =>
      match AddSeq v1 rest with
      | none => none
      | some (v2, errs) => some (v2, err :: errs)

/-- The number of calls that returned no error, among the errors returned by a run of calls. -/
def successCount (errs : List (Option String)) : Nat :=
  (errs.filter Option.isNone).length

/-- The dictionaries obtainable through `New`, `FromFile` and `Add`. -/
inductive Obtainable : Dict → Prop
  | new (T : List String) : Obtainable (New T)
  | fromFile (f : FileRead) (D : Dict) (err : Option String) :
      FromFile f = some (D, err) → Obtainable D
  | add (D D1 : Dict) (t : String) (err : Option String) :
      Obtainable D → D.Add t = some (D1, err) → Obtainable D1

/-- The dictionaries obtainable through `New`, `FromFile` and `Add` in which every list position
and every size that was converted to `Idx` is below `2^31`: `New` on at most `2^31` tokens,
`FromFile` yielding at most `2^31` tokens, and `Add` on a dictionary of fewer than `2^31`
tokens. -/
inductive ObtainableInRange : Dict → Prop
  | new (T : List String) : T.length ≤ 2147483648 → ObtainableInRange (New T)
  | fromFile (f : FileRead) (D : Dict) (err : Option String) :
      FromFile f = some (D, err) → D.Size ≤ 2147483648 → ObtainableInRange D
  | add (D D1 : Dict) (t : String) (err : Option String) :
      ObtainableInRange D → D.Size < 2147483648 → D.Add t = some (D1, err) →
      ObtainableInRange D1

/-! ## Lemmas on the map primitives -/

theorem toIdx_of_lt (n : Nat) (h : n < 2147483648) : toIdx (n : Int) = (n : Int) := by
  show ((n : Int) + 2147483648) % 4294967296 - 2147483648 = (n : Int)
  omega

theorem lookup_assign_self (k : String) (v : Idx) (l : List (String × Idx)) :
    lookup k (assign k v l) = some v := by
  induction l with
  | nil => simp [assign, lookup]
  | cons e rest ih =>
    obtain ⟨k', v'⟩ := e
    by_cases h : k' = k
    · simp [assign, lookup, h]
    · simp [assign, lookup, h, ih]

theorem lookup_assign_ne (k k' : String) (v : Idx) (l : List (String × Idx)) (hne : k' ≠ k) :
    lookup k' (assign k v l) = lookup k' l := by
  induction l with
  | nil =>
    have h : ¬ k = k' := fun e => hne e.symm
    simp [assign, lookup, h]
  | cons e rest ih =>
    obtain ⟨k1, v1⟩ := e
    by_cases h : k1 = k
    · subst h
      have h2 : ¬ k1 = k' := fun e => hne e.symm
      simp [assign, lookup, h2]
    · by_cases h3 : k1 = k'
      · subst h3
        simp [assign, lookup, h]
      · simp [assign, lookup, h, h3, ih]

theorem lookup_isSome_iff (k : String) (l : List (String × Idx)) :
    (lookup k l).isSome = true ↔ k ∈ keys l := by
  induction l with
  | nil => simp [lookup, keys]
  | cons e rest ih =>
    obtain ⟨k1, v1⟩ := e
    unfold keys at ih
    by_cases h : k1 = k
    · simp [lookup, keys, h]
    · have h2 : ¬ k = k1 := fun e => h e.symm
      simp [lookup, keys, h, h2, ih]

theorem lookup_eq_none_iff (k : String) (l : List (String × Idx)) :
    lookup k l = none ↔ k ∉ keys l := by
  rw [← lookup_isSome_iff]
  cases lookup k l <;> simp

theorem length_assign (k : String) (v : Idx) (l : List (String × Idx)) :
    (assign k v l).length = if k ∈ keys l then l.length else l.length + 1 := by
  have h := congrArg List.length (keys_assign k v l)
  simp only [keys, List.length_map] at h
  rw [h]
  unfold keys
  split <;> simp

theorem mem_of_lookup_eq_some (k : String) (v : Idx) (l : List (String × Idx))
    (h : lookup k l = some v) : (k, v) ∈ l := by
  induction l with
  | nil => simp [lookup] at h
  | cons e rest ih =>
    obtain ⟨k1, v1⟩ := e
    by_cases hk : k1 = k
    · simp [lookup, hk] at h
      simp [hk, h]
    · simp [lookup, hk] at h
      exact List.mem_cons_of_mem _ (ih h)

theorem lookup_eq_some_of_mem (k : String) (v : Idx) (l : List (String × Idx))
    (hn : (keys l).Nodup) (h : (k, v) ∈ l) : lookup k l = some v := by
  induction l with
  | nil => simp at h
  | cons e rest ih =>
    obtain ⟨k1, v1⟩ := e
    simp only [keys, List.map_cons, List.nodup_cons] at hn
    rcases List.mem_cons.mp h with heq | hmem
    · cases heq
      simp [lookup]
    · have hk : k1 ≠ k := by
        intro e
        subst e
        exact hn.1 (List.mem_map_of_mem Prod.fst hmem)
      simp [lookup, hk]
      exact ih hn.2 hmem

/-! ## Lemmas on `New` -/

theorem NewLoop_append (v : GoMap) (i : Nat) (ts us : List String) :
    NewLoop v i (ts ++ us) = NewLoop (NewLoop v i ts) (i + ts.length) us := by
  induction ts generalizing v i with
  | nil => simp [NewLoop]
  | cons t rest ih =>
    show NewLoop (v.set t (toIdx i)) (i + 1) (rest ++ us) =
      NewLoop (NewLoop (v.set t (toIdx i)) (i + 1) rest) (i + (rest.length + 1)) us
    rw [ih]
    congr 1
    omega

theorem New_snoc_entries (T : List String) (x : String) :
    (New (T ++ [x])).entries = assign x (toIdx (T.length : Int)) (New T).entries := by
  simp [New, Dict.entries, NewLoop_append, NewLoop, GoMap.set]

/-- After `New T`, a token is stored with the converted position of its last occurrence. -/
theorem lookup_New_last (T : List String) :
    ∀ (t : String) (i : Nat), T[i]? = some t → (∀ j, i < j → T[j]? ≠ some t) →
      lookup t (New T).entries = some (toIdx (i : Int)) := by
  induction T using List.reverseRecOn with
  | nil => intro t i hi; simp at hi
  | append_singleton T x ih =>
    intro t i hi hlast
    rw [New_snoc_entries]
    have hx : (T ++ [x])[T.length]? = some x := by simp
    have hlt : i < T.length + 1 := by
      have := (List.getElem?_eq_some_iff.mp hi).1
      simpa using this
    by_cases htx : t = x
    · subst htx
      have hnot : ¬ i < T.length := fun h => hlast T.length h hx
      have hi2 : i = T.length := by omega
      subst hi2
      exact lookup_assign_self _ _ _
    · have hi2 : i < T.length := by
        rcases Nat.lt_or_ge i T.length with h | h
        · exact h
        · have e : i = T.length := by omega
          subst e
          rw [hx] at hi
          exact absurd (Option.some.inj hi).symm htx
      rw [lookup_assign_ne _ _ _ _ htx]
      apply ih t i
      · rw [List.getElem?_append_left hi2] at hi
        exact hi
      · intro j hij hj
        by_cases hjl : j < T.length
        · apply hlast j hij
          rw [List.getElem?_append_left hjl]
          exact hj
        · have := (List.getElem?_eq_some_iff.mp hj).1
          exact hjl this

theorem New_keys_mem (T : List String) : ∀ t : String, t ∈ keys (New T).entries ↔ t ∈ T := by
  induction T using List.reverseRecOn with
  | nil => intro t; simp [New, Dict.entries, NewLoop, GoMap.empty, keys]
  | append_singleton T x ih =>
    intro t
    rw [New_snoc_entries, keys_assign]
    split
    · rename_i hin
      rw [ih] at hin
      rw [ih]
      simp only [List.mem_append, List.mem_singleton]
      constructor
      · intro h; exact Or.inl h
      · rintro (h | h)
        · exact h
        · subst h; exact hin
    · simp [ih]

theorem New_Size (T : List String) : (New T).Size = T.toFinset.card := by
  induction T using List.reverseRecOn with
  | nil => simp [New, Dict.Size, Dict.entries, NewLoop, GoMap.empty]
  | append_singleton T x ih =>
    unfold Dict.Size at ih ⊢
    rw [New_snoc_entries, length_assign, ih]
    have e : (T ++ [x]).toFinset = insert x T.toFinset := by
      ext a
      simp [or_comm]
    rw [e]
    by_cases hx : x ∈ T
    · rw [if_pos ((New_keys_mem T x).mpr hx)]
      simp [hx]
    · rw [if_neg (fun h => hx ((New_keys_mem T x).mp h)),
        Finset.card_insert_of_not_mem (by simpa using hx)]

theorem Index_of_lookup (v : Dict) (t : String) (i : Idx) (h : lookup t v.entries = some i) :
    v.Index t = (i, none) := by
  simp [Dict.Index, h]

theorem New_Index_last (T : List String) (t : String) (i : Nat) (hi : T[i]? = some t)
    (hlast : ∀ j, i < j → T[j]? ≠ some t) : (New T).Index t = (toIdx (i : Int), none) :=
  Index_of_lookup _ _ _ (lookup_New_last T t i hi hlast)

theorem last_of_nodup (T : List String) (t : String) (i : Nat) (hd : T.Nodup)
    (hi : T[i]? = some t) : ∀ j, i < j → T[j]? ≠ some t := by
  intro j hij hj
  have hlt := (List.getElem?_eq_some_iff.mp hi).1
  have := List.getElem?_inj hlt hd (hi.trans hj.symm)
  omega

/-! ## Large inputs -/

theorem tokenA_injective : Function.Injective tokenA := by
  intro a b h
  have h2 := congrArg String.length h
  simpa [tokenA, String.length] using h2

theorem manyTokens_nodup (n : Nat) : (manyTokens n).Nodup :=
  List.Nodup.map tokenA_injective (List.nodup_range n)

theorem manyTokens_length (n : Nat) : (manyTokens n).length = n := by
  simp [manyTokens]

theorem manyTokens_getElem? (n i : Nat) (h : i < n) : (manyTokens n)[i]? = some (tokenA i) := by
  simp [manyTokens, List.getElem?_range h]

theorem toIdx_two_pow_31 : toIdx 2147483648 = -2147483648 := by decide

/-! ## Construction from a list -/

/-- C1, as stated, fails on a list of `2^31 + 1` pairwise distinct tokens: at position `2^31`
the stored index is `Idx(2147483648) = -2147483648`, not the position. -/
theorem New_Index_wraps_position :
    (manyTokens 2147483649).Nodup ∧
    (manyTokens 2147483649)[2147483648]? = some (tokenA 2147483648) ∧
    (New (manyTokens 2147483649)).Index (tokenA 2147483648) = (-2147483648, none) ∧
    (New (manyTokens 2147483649)).Index (tokenA 2147483648) ≠ (2147483648, none) := by
  have hd := manyTokens_nodup 2147483649
  have hi := manyTokens_getElem? 2147483649 2147483648 (by omega)
  have h := New_Index_last _ _ _ hi (last_of_nodup _ _ _ hd hi)
  rw [show ((2147483648 : Nat) : Int) = 2147483648 from rfl, toIdx_two_pow_31] at h
  refine ⟨hd, hi, h, ?_⟩
  rw [h]
  intro e
  have e1 := congrArg Prod.fst e
  revert e1
  decide

/-- C1 (amended): for every list `T` of pairwise distinct tokens of length at most `2^31` and
every valid position `i`, `New(T).Index(T[i])` returns `i` with a nil error. -/
theorem New_Index_position (T : List String) (t : String) (i : Nat) (hd : T.Nodup)
    (hlen : T.length ≤ 2147483648) (hi : T[i]? = some t) :
    (New T).Index t = ((i : Int), none) := by
  have hlt := (List.getElem?_eq_some_iff.mp hi).1
  rw [New_Index_last T t i hi (last_of_nodup T t i hd hi), toIdx_of_lt i (by omega)]

theorem New_Index_position_witness :
    ["the", "quick", "fox"].Nodup ∧ ["the", "quick", "fox"].length ≤ 2147483648 ∧
    ["the", "quick", "fox"][1]? = some "quick" ∧
    (New ["the", "quick", "fox"]).Index "quick" = (((1 : Nat) : Int), none) :=
  ⟨by decide, by decide, by decide,
    New_Index_position ["the", "quick", "fox"] "quick" 1 (by decide) (by decide) (by decide)⟩

/-- C9, as stated, fails on a list of `2^31 + 1` tokens: the token whose last (and only)
occurrence is at position `2^31` is stored with index `-2147483648`. -/
theorem New_last_occurrence_wraps :
    (manyTokens 2147483649)[2147483648]? = some (tokenA 2147483648) ∧
    (∀ j, 2147483648 < j → (manyTokens 2147483649)[j]? ≠ some (tokenA 2147483648)) ∧
    ((New (manyTokens 2147483649)).Index (tokenA 2147483648)).1 = -2147483648 := by
  have hd := manyTokens_nodup 2147483649
  have hi := manyTokens_getElem? 2147483649 2147483648 (by omega)
  have hl := last_of_nodup _ _ _ hd hi
  have h := New_Index_last _ _ _ hi hl
  rw [show ((2147483648 : Nat) : Int) = 2147483648 from rfl, toIdx_two_pow_31] at h
  exact ⟨hi, hl, by rw [h]⟩

/-- C9 (amended): last-write-wins on construction. For every list `T` of length at most `2^31`
(duplicates allowed) and every token `t` whose last occurrence in `T` is at position `i`,
`New(T).Index(t)` is `i`, with no renumbering; and `New(["cat","dog","cat","bird"])` has size 3
with `cat` at 2, `dog` at 1 and `bird` at 3. -/
theorem New_last_write_wins (T : List String) (t : String) (i : Nat)
    (hlen : T.length ≤ 2147483648) (hi : T[i]? = some t)
    (hlast : ∀ j, i < j → T[j]? ≠ some t) :
    (New T).Index t = ((i : Int), none) ∧
    (New ["cat", "dog", "cat", "bird"]).Size = 3 ∧
    (New ["cat", "dog", "cat", "bird"]).Index "cat" = (2, none) ∧
    (New ["cat", "dog", "cat", "bird"]).Index "dog" = (1, none) ∧
    (New ["cat", "dog", "cat", "bird"]).Index "bird" = (3, none) := by
  have hlt := (List.getElem?_eq_some_iff.mp hi).1
  refine ⟨?_, by decide, by decide, by decide, by decide⟩
  rw [New_Index_last T t i hi hlast, toIdx_of_lt i (by omega)]

theorem New_last_write_wins_witness :
    ["a", "b", "a", "b", "c"].length ≤ 2147483648 ∧
    ["a", "b", "a", "b", "c"][3]? = some "b" ∧
    (∀ j, 3 < j → ["a", "b", "a", "b", "c"][j]? ≠ some "b") ∧
    (New ["a", "b", "a", "b", "c"]).Index "b" = (((3 : Nat) : Int), none) :=
  have hlast : ∀ j, 3 < j → ["a", "b", "a", "b", "c"][j]? ≠ some "b" := by
    intro j hj
    match j, hj with
    | 4, _ => decide
    | j + 5, _ => simp
  ⟨by decide, by decide, hlast,
    (New_last_write_wins ["a", "b", "a", "b", "c"] "b" 3 (by decide) (by decide) hlast).1⟩

/-! ## Single-token addition and lookups -/

theorem Dict.nodup_entries (v : Dict) : (keys v.entries).Nodup := by
  unfold Dict.entries
  cases h : v.tokens with
  | none => simp [keys]
  | some m => exact m.nodup

theorem Add_of_fresh (m : GoMap) (t : String) (h : (Dict.mk (some m)).HasToken t = false) :
    (Dict.mk (some m)).Add t =
      some (Dict.mk (some (m.set t (toIdx ((Dict.mk (some m)).Size : Int)))), none) := by
  simp [Dict.Add, h]

theorem Add_of_present (v : Dict) (t : String) (h : v.HasToken t = true) :
    v.Add t = some (v, some "Token string already existed.") := by
  simp [Dict.Add, h]

theorem HasToken_iff_mem_keys (v : Dict) (t : String) :
    v.HasToken t = true ↔ t ∈ keys v.entries := by
  unfold Dict.HasToken
  exact lookup_isSome_iff t v.entries

theorem Index_eq_iff_mem (v : Dict) (t : String) (i : Idx) :
    v.Index t = (i, none) ↔ (t, i) ∈ v.entries := by
  unfold Dict.Index
  constructor
  · intro h
    cases hl : lookup t v.entries with
    | none => rw [hl] at h; simp at h
    | some j =>
      rw [hl] at h
      simp only [Prod.mk.injEq, and_true] at h
      subst h
      exact mem_of_lookup_eq_some t j v.entries hl
  · intro h
    rw [lookup_eq_some_of_mem t i v.entries v.nodup_entries h]

theorem Add_entries_of_fresh (D : Dict) (t : String) (hmap : D.tokens.isSome = true)
    (hfresh : D.HasToken t = false) :
    ∃ D1, D.Add t = some (D1, none) ∧
      D1.entries = assign t (toIdx (D.Size : Int)) D.entries ∧ D1.tokens.isSome = true := by
  obtain ⟨tokens⟩ := D
  cases tokens with
  | none => simp at hmap
  | some m => exact ⟨_, Add_of_fresh m t hfresh, rfl, rfl⟩

theorem Add_toIdx_of_fresh (D : Dict) (t : String) (hmap : D.tokens.isSome = true)
    (hfresh : D.HasToken t = false) :
    ∃ D1, D.Add t = some (D1, none) ∧ D1.HasToken t = true ∧
      D1.Index t = (toIdx (D.Size : Int), none) := by
  obtain ⟨D1, hadd, hent, _⟩ := Add_entries_of_fresh D t hmap hfresh
  refine ⟨D1, hadd, ?_, ?_⟩
  · unfold Dict.HasToken
    rw [hent, lookup_assign_self]
    rfl
  · apply Index_of_lookup
    rw [hent, lookup_assign_self]

theorem New_tokens_isSome (T : List String) : (New T).tokens.isSome = true := rfl

/-- C2, as stated, fails in two places. On the zero value `Dict{}` (nil map) a fresh token makes
`Add` panic on the map write instead of returning. On a dictionary of `2^31` tokens the fresh
token is stored with index `Idx(2147483648) = -2147483648`, not the size before the call. -/
theorem Add_nil_map_and_wrap :
    ((Dict.mk none).HasToken "a" = false ∧ (Dict.mk none).Add "a" = none) ∧
    ((New (manyTokens 2147483648)).HasToken (tokenA 2147483648) = false ∧
      (New (manyTokens 2147483648)).Size = 2147483648 ∧
      ∃ D, (New (manyTokens 2147483648)).Add (tokenA 2147483648) = some (D, none) ∧
        D.Index (tokenA 2147483648) = (-2147483648, none)) := by
  refine ⟨⟨rfl, rfl⟩, ?_⟩
  have hfresh : (New (manyTokens 2147483648)).HasToken (tokenA 2147483648) = false := by
    rw [← Bool.not_eq_true, HasToken_iff_mem_keys, New_keys_mem]
    simp only [manyTokens, List.mem_map, List.mem_range, not_exists, not_and]
    intro n hn e
    have := tokenA_injective e
    omega
  have hsize : (New (manyTokens 2147483648)).Size = 2147483648 := by
    rw [New_Size, List.toFinset_card_of_nodup (manyTokens_nodup _), manyTokens_length]
  refine ⟨hfresh, hsize, ?_⟩
  obtain ⟨D1, hadd, _, hidx⟩ := Add_toIdx_of_fresh _ _ (New_tokens_isSome _) hfresh
  rw [hsize, show ((2147483648 : Nat) : Int) = 2147483648 from rfl, toIdx_two_pow_31] at hidx
  exact ⟨D1, hadd, hidx⟩

/-- C2 (amended): for every dictionary `D` whose map is not nil and holds fewer than `2^31`
tokens, and every token `t` with `D.HasToken(t)` false, `D.Add(t)` returns no error, and
afterwards `HasToken(t)` is true and `Index(t)` returns, without error, the value `D.Size()`
had before the call. -/
theorem Add_fresh (D : Dict) (t : String) (hmap : D.tokens.isSome = true)
    (hsize : D.Size < 2147483648) (hfresh : D.HasToken t = false) :
    ∃ D1, D.Add t = some (D1, none) ∧ D1.HasToken t = true ∧
      D1.Index t = ((D.Size : Int), none) := by
  obtain ⟨D1, hadd, hhas, hidx⟩ := Add_toIdx_of_fresh D t hmap hfresh
  rw [toIdx_of_lt _ hsize] at hidx
  exact ⟨D1, hadd, hhas, hidx⟩

theorem Add_fresh_witness :
    (New ["a", "b"]).tokens.isSome = true ∧ (New ["a", "b"]).Size < 2147483648 ∧
    (New ["a", "b"]).HasToken "c" = false ∧
    ∃ D1, (New ["a", "b"]).Add "c" = some (D1, none) ∧ D1.HasToken "c" = true ∧
      D1.Index "c" = (((New ["a", "b"]).Size : Int), none) :=
  ⟨by decide, by decide, by decide,
    Add_fresh (New ["a", "b"]) "c" (by decide) (by decide) (by decide)⟩

/-- C3: for every dictionary `D` and every token `t` already present in `D`, `D.Add(t)` returns
an error and leaves `D` unchanged: the dictionary after the call is `D` itself, so the size is
the same and every token has the same presence and the same index as before. -/
theorem Add_duplicate (D : Dict) (t : String) (hpresent : D.HasToken t = true) :
    ∃ D1 msg, D.Add t = some (D1, some msg) ∧ D1 = D ∧ D1.Size = D.Size ∧
      ∀ u, D1.HasToken u = D.HasToken u ∧ D1.Index u = D.Index u :=
  ⟨D, "Token string already existed.", Add_of_present D t hpresent, rfl, rfl,
    fun _ => ⟨rfl, rfl⟩⟩

theorem Add_duplicate_witness :
    (New ["a", "b"]).HasToken "b" = true ∧
    ∃ D1 msg, (New ["a", "b"]).Add "b" = some (D1, some msg) ∧ D1 = New ["a", "b"] ∧
      D1.Size = (New ["a", "b"]).Size ∧
      ∀ u, D1.HasToken u = (New ["a", "b"]).HasToken u ∧
        D1.Index u = (New ["a", "b"]).Index u :=
  ⟨by decide, Add_duplicate (New ["a", "b"]) "b" (by decide)⟩

/-- C6: for every dictionary `D` and token `t`, `D.Index(t)` returns an error if and only if
`D.HasToken(t)` is false; in the error case the returned index is the sentinel `-1`, and in the
success case the returned index is the one stored for `t`. -/
theorem Index_error_iff (D : Dict) (t : String) :
    ((D.Index t).2 ≠ none ↔ D.HasToken t = false) ∧
    (D.HasToken t = false → (D.Index t).1 = -1) ∧
    (D.HasToken t = true → ∃ i, (t, i) ∈ D.entries ∧ D.Index t = (i, none)) := by
  unfold Dict.HasToken
  cases hl : lookup t D.entries with
  | none => simp [Dict.Index, hl, toIdx]
  | some i =>
    have hi : D.Index t = (i, none) := Index_of_lookup D t i hl
    simp [hi, mem_of_lookup_eq_some t i D.entries hl]

theorem Index_error_iff_witness :
    (((New ["a", "b"]).Index "zz").2 ≠ none ↔ (New ["a", "b"]).HasToken "zz" = false) ∧
    ((New ["a", "b"]).Index "zz").1 = -1 ∧
    ∃ i, ("b", i) ∈ (New ["a", "b"]).entries ∧ (New ["a", "b"]).Index "b" = (i, none) :=
  ⟨(Index_error_iff (New ["a", "b"]) "zz").1,
    (Index_error_iff (New ["a", "b"]) "zz").2.1 (by decide),
    (Index_error_iff (New ["a", "b"]) "b").2.2 (by decide)⟩

/-- C8: for every dictionary `D`, every order in which the loop may visit the map, and every
index `i`, `D.HasIdx(i)` is true if and only if some token of `D` has stored index `i`. -/
theorem HasIdx_iff (D : Dict) (order : RangeOrder D) (i : Idx) :
    D.HasIdx order i = true ↔ ∃ t, (t, i) ∈ D.entries ∧ D.Index t = (i, none) := by
  unfold Dict.HasIdx
  rw [List.any_eq_true]
  constructor
  · rintro ⟨⟨t, j⟩, hmem, hj⟩
    have hj2 : j = i := by simpa using hj
    subst hj2
    have hm : (t, j) ∈ D.entries := order.property.mem_iff.mp hmem
    exact ⟨t, hm, (Index_eq_iff_mem D t j).mpr hm⟩
  · rintro ⟨t, hm, _⟩
    exact ⟨(t, i), order.property.mem_iff.mpr hm, by simp⟩

/-! ## Construction from a file -/

theorem FromFileLoop_snoc (v : Dict) (L : List String) (x : String) :
    FromFileLoop v (L ++ [x]) =
      match FromFileLoop v L with
      | none => none
      | some v1 =>
        match v1.Add x with
        | none => none
        | some (v2, _) => some v2 := by
  induction L generalizing v with
  | nil =>
    simp only [List.nil_append, FromFileLoop]
  | cons l rest ih =>
    simp only [List.cons_append, FromFileLoop]
    cases v.Add l with
    | none => rfl
    | some r => exact ih r.1

theorem distinctCount_snoc (L : List String) (x : String) :
    distinctCount (L ++ [x]) = if x ∈ L then distinctCount L else distinctCount L + 1 := by
  unfold distinctCount
  have e : (L ++ [x]).toFinset = insert x L.toFinset := by
    ext a
    simp [or_comm]
  rw [e]
  by_cases hx : x ∈ L
  · simp [hx]
  · rw [if_neg hx, Finset.card_insert_of_not_mem (by simpa using hx)]

theorem firstSeenRank_snoc_of_mem (L : List String) (x t : String) (ht : t ∈ L) :
    firstSeenRank (L ++ [x]) t = firstSeenRank L t := by
  unfold firstSeenRank
  rw [List.indexOf_append_of_mem ht,
    List.take_append_of_le_length (List.indexOf_le_length)]

theorem firstSeenRank_snoc_self (L : List String) (x : String) (hx : x ∉ L) :
    firstSeenRank (L ++ [x]) x = distinctCount L := by
  unfold firstSeenRank
  rw [List.indexOf_append_of_not_mem hx]
  simp

/-- The state of the loop of `FromFile` after the lines `L`: the map is not nil, it holds the
lines of `L`, each with the converted first-seen rank, and its size is the number of distinct
lines. -/
theorem FromFileLoop_spec (L : List String) :
    ∃ D, FromFileLoop ⟨some GoMap.empty⟩ L = some D ∧ D.tokens.isSome = true ∧
      (∀ t, lookup t D.entries =
        if t ∈ L then some (toIdx (firstSeenRank L t : Int)) else none) ∧
      D.Size = distinctCount L ∧
      (∀ t, t ∈ L → firstSeenRank L t < distinctCount L) := by
  induction L using List.reverseRecOn with
  | nil =>
    refine ⟨⟨some GoMap.empty⟩, rfl, rfl, ?_, rfl, ?_⟩
    · intro t; simp [Dict.entries, GoMap.empty, lookup]
    · intro t ht; simp at ht
  | append_singleton L x ih =>
    obtain ⟨D, hloop, hmap, hlook, hsize, hrank⟩ := ih
    rw [FromFileLoop_snoc, hloop]
    by_cases hx : x ∈ L
    · have hpresent : D.HasToken x = true := by
        unfold Dict.HasToken
        rw [hlook x, if_pos hx]
        rfl
      refine ⟨D, by simp [Add_of_present D x hpresent], hmap, ?_, ?_, ?_⟩
      · intro t
        rw [hlook t]
        by_cases ht : t ∈ L
        · rw [if_pos ht, if_pos (List.mem_append_left _ ht), firstSeenRank_snoc_of_mem L x t ht]
        · have : t ∉ L ++ [x] := by
            simp only [List.mem_append, List.mem_singleton, not_or]
            exact ⟨ht, fun e => ht (e ▸ hx)⟩
          rw [if_neg ht, if_neg this]
      · rw [hsize, distinctCount_snoc, if_pos hx]
      · intro t ht
        have ht2 : t ∈ L := by
          rcases List.mem_append.mp ht with h | h
          · exact h
          · rw [List.mem_singleton.mp h]; exact hx
        rw [firstSeenRank_snoc_of_mem L x t ht2, distinctCount_snoc, if_pos hx]
        exact hrank t ht2
    · have hfresh : D.HasToken x = false := by
        unfold Dict.HasToken
        rw [hlook x, if_neg hx]
        rfl
      obtain ⟨D1, hadd, hent, hmap1⟩ := Add_entries_of_fresh D x hmap hfresh
      refine ⟨D1, by simp [hadd], hmap1, ?_, ?_, ?_⟩
      · intro t
        rw [hent]
        by_cases htx : t = x
        · subst htx
          rw [lookup_assign_self, if_pos (by simp), firstSeenRank_snoc_self L t hx, hsize]
        · rw [lookup_assign_ne _ _ _ _ htx, hlook t]
          by_cases ht : t ∈ L
          · rw [if_pos ht, if_pos (List.mem_append_left _ ht),
              firstSeenRank_snoc_of_mem L x t ht]
          · have : t ∉ L ++ [x] := by
              simp only [List.mem_append, List.mem_singleton, not_or]
              exact ⟨ht, htx⟩
            rw [if_neg ht, if_neg this]
      · unfold Dict.Size at hsize ⊢
        rw [hent, length_assign, distinctCount_snoc, if_neg hx, hsize]
        have : x ∉ keys D.entries := fun h =>
          by simpa [hfresh] using (HasToken_iff_mem_keys D x).mpr h
        rw [if_neg this]
      · intro t ht
        rw [distinctCount_snoc, if_neg hx]
        rcases List.mem_append.mp ht with h | h
        · rw [firstSeenRank_snoc_of_mem L x t h]
          exact Nat.lt_succ_of_lt (hrank t h)
        · rw [List.mem_singleton.mp h, firstSeenRank_snoc_self L x hx]
          exact Nat.lt_succ_self _

theorem FromFile_opened (L : List String) (scanErr : Option String) (D : Dict)
    (h : FromFileLoop ⟨some GoMap.empty⟩ L = some D) :
    FromFile (FileRead.opened L scanErr) = some (D, none) := by
  simp [FromFile, h]

theorem manyTokens_succ (n : Nat) : manyTokens (n + 1) = manyTokens n ++ [tokenA n] := by
  simp [manyTokens, List.range_succ]

theorem tokenA_not_mem_manyTokens (n : Nat) : tokenA n ∉ manyTokens n := by
  simp only [manyTokens, List.mem_map, List.mem_range, not_exists, not_and]
  intro k hk e
  have := tokenA_injective e
  omega

theorem firstSeenRank_manyTokens (n : Nat) :
    firstSeenRank (manyTokens (n + 1)) (tokenA n) = n := by
  rw [manyTokens_succ, firstSeenRank_snoc_self _ _ (tokenA_not_mem_manyTokens n)]
  unfold distinctCount
  rw [List.toFinset_card_of_nodup (manyTokens_nodup n), manyTokens_length]

/-- C10, as stated, fails on a file of `2^31 + 1` pairwise distinct lines: the last line has
`2^31` distinct lines before it and is stored with index `-2147483648`. -/
theorem FromFile_rank_wraps :
    firstSeenRank (manyTokens 2147483649) (tokenA 2147483648) = 2147483648 ∧
    ∃ D, FromFile (FileRead.opened (manyTokens 2147483649) none) = some (D, none) ∧
      D.Index (tokenA 2147483648) = (-2147483648, none) := by
  have hrank := firstSeenRank_manyTokens 2147483648
  refine ⟨hrank, ?_⟩
  obtain ⟨D, hloop, _, hlook, _, _⟩ := FromFileLoop_spec (manyTokens 2147483649)
  refine ⟨D, FromFile_opened _ _ D hloop, ?_⟩
  apply Index_of_lookup
  have hmem : tokenA 2147483648 ∈ manyTokens 2147483649 := by
    rw [show (2147483649 : Nat) = 2147483648 + 1 from rfl, manyTokens_succ]
    simp
  have hr : firstSeenRank (manyTokens 2147483649) (tokenA 2147483648) = 2147483648 := hrank
  rw [hlook, if_pos hmem, hr, show ((2147483648 : Nat) : Int) = 2147483648 from rfl,
    toIdx_two_pow_31]

/-- C10 (amended): for a readable file with lines `L` of which at most `2^31` are distinct,
`FromFile` succeeds and yields a dictionary that contains exactly the distinct lines of `L`,
where each token has as index the number of distinct lines before its own first occurrence, and
whose size is the number of distinct lines; the lines apple, banana, apple, cherry give size 3
with apple at 0, banana at 1 and cherry at 2. -/
theorem FromFile_first_seen (L : List String) (hbound : distinctCount L ≤ 2147483648) :
    (∃ D, FromFile (FileRead.opened L none) = some (D, none) ∧
      (∀ t, D.HasToken t = true ↔ t ∈ L) ∧
      (∀ t, t ∈ L → D.Index t = ((firstSeenRank L t : Int), none)) ∧
      D.Size = distinctCount L) ∧
    (∃ D, FromFile (FileRead.opened ["apple", "banana", "apple", "cherry"] none)
        = some (D, none) ∧
      D.Size = 3 ∧ D.Index "apple" = (0, none) ∧ D.Index "banana" = (1, none) ∧
      D.Index "cherry" = (2, none)) := by
  constructor
  · obtain ⟨D, hloop, _, hlook, hsize, hrank⟩ := FromFileLoop_spec L
    refine ⟨D, FromFile_opened _ _ D hloop, ?_, ?_, hsize⟩
    · intro t
      unfold Dict.HasToken
      rw [hlook t]
      by_cases ht : t ∈ L <;> simp [ht]
    · intro t ht
      apply Index_of_lookup
      have := hrank t ht
      rw [hlook t, if_pos ht, toIdx_of_lt _ (by omega)]
  · exact ⟨_, rfl, by decide, by decide, by decide, by decide⟩

theorem FromFile_first_seen_witness :
    distinctCount ["x", "y", "x"] ≤ 2147483648 ∧
    ∃ D, FromFile (FileRead.opened ["x", "y", "x"] none) = some (D, none) ∧
      (∀ t, D.HasToken t = true ↔ t ∈ ["x", "y", "x"]) ∧
      (∀ t, t ∈ ["x", "y", "x"] →
        D.Index t = ((firstSeenRank ["x", "y", "x"] t : Int), none)) ∧
      D.Size = distinctCount ["x", "y", "x"] :=
  ⟨by decide, (FromFile_first_seen ["x", "y", "x"] (by decide)).1⟩

/-! ## Lookup of a token by index -/

theorem RangeOrder_singleton (v : Dict) (e : String × Idx) (he : v.entries = [e])
    (order : RangeOrder v) : order.val = [e] := by
  have h : order.val.Perm [e] := he ▸ order.property
  exact List.perm_singleton.mp h

theorem Token_same_index (v : Dict) (order : RangeOrder v) (s t : String)
    (h : (v.Index s).1 = (v.Index t).1) :
    v.Token order (v.Index s).1 = v.Token order (v.Index t).1 := by
  rw [h]

/-- C5 fails on the code: after `New(["a","b","a"])`, which stores `a` at 2 and `b` at 1 and
has size 2, `Add("c")` succeeds and stores `c` at `Idx(Size()) = 2`, the index of `a`. -/
theorem Add_after_New_index_collision :
    (New ["a", "b", "a"]).Size = 2 ∧
    ∃ D, (New ["a", "b", "a"]).Add "c" = some (D, none) ∧
      D.Index "a" = (2, none) ∧ D.Index "c" = (2, none) ∧ "a" ≠ "c" :=
  ⟨by decide, _, rfl, by decide, by decide, by decide⟩

/-- C4 fails on the code. `Token` returns the matched key through `fmt.Sprintf`: in
`New(["100%"])` the token `100%` is present with index 0, and `Token(0)` is `100%!(NOVERB)`.
Next to that, in the dictionary of `New(["a","b","a"])` followed by `Add("c")` the tokens `a`
and `c` are both present with index 2, so whatever the order in which the loop visits the map,
the round trip fails for one of them. -/
theorem Token_Index_round_trip_fails :
    ((New ["100%"]).HasToken "100%" = true ∧ (New ["100%"]).Index "100%" = (0, none) ∧
      ∀ order : RangeOrder (New ["100%"]),
        (New ["100%"]).Token order ((New ["100%"]).Index "100%").1 = "100%!(NOVERB)") ∧
    (∃ D, (New ["a", "b", "a"]).Add "c" = some (D, none) ∧
      D.HasToken "a" = true ∧ D.HasToken "c" = true ∧
      ∀ order : RangeOrder D,
        D.Token order (D.Index "a").1 ≠ "a" ∨ D.Token order (D.Index "c").1 ≠ "c") := by
  refine ⟨⟨by decide, by decide, ?_⟩, _, rfl, by decide, by decide, ?_⟩
  · intro order
    have h := RangeOrder_singleton (New ["100%"]) ("100%", 0) (by decide) order
    unfold Dict.Token
    rw [h]
    decide
  · intro order
    by_contra hcon
    rw [not_or, not_not, not_not] at hcon
    obtain ⟨ha, hc⟩ := hcon
    have e : ("a" : String) = "c" :=
      ha.symm.trans ((Token_same_index _ order "a" "c" (by decide)).trans hc)
    exact absurd e (by decide)

/-- C7 fails on the code: in `New(["%d"])` the token `%d` maps to index 0, and `Token(0)`
returns `%!d(MISSING)`, the expansion of the token as a format string with no operand. -/
theorem Token_expands_format_verb :
    (New ["%d"]).Index "%d" = (0, none) ∧
    ∀ order : RangeOrder (New ["%d"]), (New ["%d"]).Token order 0 = "%!d(MISSING)" := by
  refine ⟨by decide, ?_⟩
  intro order
  have h := RangeOrder_singleton (New ["%d"]) ("%d", 0) (by decide) order
  unfold Dict.Token
  rw [h]
  decide

/-! ## The format loop never runs out of fuel -/

theorem parsenum_length (num : Nat) (isnum : Bool) (cs : List Char) :
    (parsenum num isnum cs).2.2.length ≤ cs.length := by
  induction cs generalizing num isnum with
  | nil => simp [parsenum]
  | cons c rest ih =>
    unfold parsenum
    split
    · split
      · simp
      · exact Nat.le_succ_of_le (ih _ _)
    · simp

theorem parseArgNumber_length (cs : List Char) :
    (parseArgNumber cs).2.1.length ≤ cs.length := by
  have hbody : (cs.drop 1).length ≤ cs.length := by simp
  have hafter : (((cs.drop 1).dropWhile (fun c => c != Char.ofNat 93)).drop 1).length
      ≤ cs.length :=
    Nat.le_trans (List.drop_sublist _ _).length_le
      (Nat.le_trans (List.dropWhile_sublist _).length_le hbody)
  unfold parseArgNumber
  split
  · exact hbody
  · simp only []
    split
    · split
      · exact hafter
      · exact hafter
    · exact hbody

theorem argNumber_length (cs : List Char) (good : Bool) :
    (argNumber cs good).1.length ≤ cs.length := by
  unfold argNumber
  split
  · split
    · exact parseArgNumber_length _
    · exact Nat.le_refl _
  · exact Nat.le_refl _

theorem doWidth_length (cs : List Char) (afterIndex good : Bool) :
    (doWidth cs afterIndex good).2.1.length ≤ cs.length := by
  unfold doWidth
  split
  · split
    · simp
    · exact parsenum_length 0 false _
  · simp

theorem doPrecision_length (cs : List Char) (afterIndex good : Bool) :
    (doPrecision cs afterIndex good).2.1.length ≤ cs.length := by
  unfold doPrecision
  split
  · rename_i c rest
    split
    · have h := argNumber_length rest (if afterIndex then false else good)
      split
      · rename_i d rest4 a4 g4 heq
        rw [heq] at h
        have h1 : (d :: rest4).length ≤ (c :: rest).length :=
          Nat.le_trans h (Nat.le_succ _)
        split
        · exact Nat.le_trans (Nat.le_succ _) h1
        · exact Nat.le_trans (parsenum_length 0 false (d :: rest4)) h1
      · exact Nat.zero_le _
    · exact Nat.le_refl _
  · exact Nat.zero_le _

theorem doVerbChar_length (cs : List Char) (good : Bool) :
    (doVerbChar cs good).2.length ≤ cs.length := by
  unfold doVerbChar
  split
  · simp
  · split
    · simp
    · split <;> simp

theorem doVerb_length (cs : List Char) : (doVerb cs).2.length ≤ cs.length := by
  have h1 : (cs.dropWhile isFlag).length ≤ cs.length := (List.dropWhile_sublist _).length_le
  have h2 := argNumber_length (cs.dropWhile isFlag) true
  unfold doVerb
  rcases e2 : argNumber (cs.dropWhile isFlag) true with ⟨cs2, a2, g2⟩
  rw [e2] at h2
  simp only []
  have h3 := doWidth_length cs2 a2 g2
  rcases e3 : doWidth cs2 a2 g2 with ⟨o3, cs3, a3, g3⟩
  rw [e3] at h3
  simp only []
  have h5 := doPrecision_length cs3 a3 g3
  rcases e5 : doPrecision cs3 a3 g3 with ⟨o5, cs5, a5, g5⟩
  rw [e5] at h5
  simp only []
  have h15 : cs5.length ≤ cs.length :=
    Nat.le_trans h5 (Nat.le_trans h3 (Nat.le_trans h2 h1))
  cases a5 with
  | true =>
    exact Nat.le_trans (doVerbChar_length cs5 g5) h15
  | false =>
    have h6 := argNumber_length cs5 g5
    rcases e6 : argNumber cs5 g5 with ⟨cs6, a6, g6⟩
    rw [e6] at h6
    exact Nat.le_trans (doVerbChar_length cs6 g6) (Nat.le_trans h6 h15)

/-- Any two amounts of fuel above the length of the format give the same output: the fuel that
`Sprintf` passes is never used up. -/
theorem doPrintf_fuel (f1 : Nat) : ∀ (f2 : Nat) (format : List Char),
    format.length < f1 → format.length < f2 → doPrintf f1 format = doPrintf f2 format := by
  induction f1 with
  | zero => intro f2 format h; omega
  | succ f1 ih =>
    intro f2 format h1 h2
    cases f2 with
    | zero => omega
    | succ f2 =>
      unfold doPrintf
      have hd : (format.dropWhile (fun c => c != Char.ofNat 37)).length ≤ format.length :=
        (List.dropWhile_sublist _).length_le
      generalize format.dropWhile (fun c => c != Char.ofNat 37) = tail at hd ⊢
      cases tail with
      | nil => rfl
      | cons c afterPercent =>
        have hv := doVerb_length afterPercent
        simp only [List.length_cons] at hd
        simp only []
        rw [ih f2 (doVerb afterPercent).2 (by omega) (by omega)]

theorem Sprintf_fuel (format : String) (fuel : Nat) (h : format.length < fuel) :
    String.mk (doPrintf fuel format.data) = Sprintf format := by
  unfold Sprintf
  rw [doPrintf_fuel fuel (format.length + 1) format.data h (Nat.lt_succ_self _)]

/-! ## Runs of `Add` calls -/

theorem assign_of_not_mem (k : String) (v : Idx) (l : List (String × Idx))
    (h : k ∉ keys l) : assign k v l = l ++ [(k, v)] := by
  induction l with
  | nil => rfl
  | cons e rest ih =>
    obtain ⟨k1, v1⟩ := e
    simp only [keys, List.map_cons, List.mem_cons, not_or] at h
    have h1 : ¬ k1 = k := fun e => h.1 e.symm
    simp only [assign, if_neg h1, List.cons_append]
    rw [ih h.2]

theorem Add_step (D : Dict) (t : String) (hmap : D.tokens.isSome = true) :
    ∃ D1 err, D.Add t = some (D1, err) ∧ D1.tokens.isSome = true ∧
      ((D.HasToken t = true ∧ err ≠ none ∧ D1 = D) ∨
       (D.HasToken t = false ∧ err = none ∧
         D1.entries = D.entries ++ [(t, toIdx (D.Size : Int))])) := by
  cases hp : D.HasToken t with
  | true =>
    exact ⟨D, _, Add_of_present D t hp, hmap, Or.inl ⟨rfl, by simp, rfl⟩⟩
  | false =>
    obtain ⟨D1, hadd, hent, hmap1⟩ := Add_entries_of_fresh D t hmap hp
    refine ⟨D1, none, hadd, hmap1, Or.inr ⟨rfl, rfl, ?_⟩⟩
    rw [hent]
    apply assign_of_not_mem
    intro hin
    have := (HasToken_iff_mem_keys D t).mpr hin
    rw [hp] at this
    exact Bool.false_ne_true this

theorem successCount_cons (e : Option String) (errs : List (Option String)) :
    successCount (e :: errs) = (if e = none then 1 else 0) + successCount errs := by
  cases e with
  | none => simp [successCount, List.filter]; omega
  | some m => simp [successCount, List.filter]

/-- A run of `Add` calls on a dictionary with a non-nil map never panics, and the size grows by
the number of calls that returned no error. -/
theorem AddSeq_size (ts : List String) : ∀ D : Dict, D.tokens.isSome = true →
    ∃ D1 errs, AddSeq D ts = some (D1, errs) ∧ D1.tokens.isSome = true ∧
      errs.length = ts.length ∧ D1.Size = D.Size + successCount errs := by
  induction ts with
  | nil => intro D hmap; exact ⟨D, [], rfl, hmap, rfl, rfl⟩
  | cons t rest ih =>
    intro D hmap
    obtain ⟨D1, err, hadd, hmap1, hcase⟩ := Add_step D t hmap
    obtain ⟨D2, errs, hseq, hmap2, hlen, hsize⟩ := ih D1 hmap1
    refine ⟨D2, err :: errs, by simp [AddSeq, hadd, hseq], hmap2, by simp [hlen], ?_⟩
    rw [hsize, successCount_cons]
    rcases hcase with ⟨_, hne, heq⟩ | ⟨_, he, hent⟩
    · rw [heq, if_neg hne]; omega
    · have : D1.Size = D.Size + 1 := by
        unfold Dict.Size
        rw [hent]
        simp
      rw [this, if_pos he]; omega

theorem FromFileLoop_eq_AddSeq (ts : List String) : ∀ D : Dict,
    FromFileLoop D ts = (AddSeq D ts).map Prod.fst := by
  induction ts with
  | nil => intro D; rfl
  | cons t rest ih =>
    intro D
    simp only [FromFileLoop, AddSeq]
    cases D.Add t with
    | none => rfl
    | some r =>
      obtain ⟨D1, err⟩ := r
      simp only [ih D1]
      cases AddSeq D1 rest with
      | none => rfl
      | some r2 => rfl

/-- C11: for every list `T`, `New(T).Size()` is the number of distinct strings in `T`, and after
every subsequent run of `Add` calls (none of which panics) the size is that number plus the
number of calls that returned no error. -/
theorem Size_counts_distinct (T ts : List String) :
    (New T).Size = distinctCount T ∧
    ∃ D errs, AddSeq (New T) ts = some (D, errs) ∧ errs.length = ts.length ∧
      D.Size = distinctCount T + successCount errs := by
  obtain ⟨D, errs, hseq, _, hlen, hsize⟩ := AddSeq_size ts (New T) (New_tokens_isSome T)
  refine ⟨New_Size T, D, errs, hseq, hlen, ?_⟩
  rw [hsize, New_Size]
  rfl

/-- C12: frame of a successful `Add`. For every dictionary `D` and fresh token `t`, the call
`D.Add(t)` returns whenever the map of `D` is not nil, and whenever it returns it returns no
error, the size afterwards is the old size plus 1, and every token `u` other than `t` has the
same presence and the same index as before the call. -/
theorem Add_frame (D : Dict) (t : String) (hfresh : D.HasToken t = false) :
    (D.tokens.isSome = true → ∃ D1, D.Add t = some (D1, none)) ∧
    ∀ D1 err, D.Add t = some (D1, err) →
      err = none ∧ D1.Size = D.Size + 1 ∧
      ∀ u, u ≠ t → D1.HasToken u = D.HasToken u ∧ D1.Index u = D.Index u := by
  constructor
  · intro hmap
    obtain ⟨D1, hadd, _, _⟩ := Add_entries_of_fresh D t hmap hfresh
    exact ⟨D1, hadd⟩
  · intro D1 err hadd
    have hmap : D.tokens.isSome = true := by
      cases hm : D.tokens with
      | none => simp [Dict.Add, hfresh, hm] at hadd
      | some m => rfl
    obtain ⟨D2, hadd2, hent, _⟩ := Add_entries_of_fresh D t hmap hfresh
    rw [hadd2] at hadd
    simp only [Option.some.injEq, Prod.mk.injEq] at hadd
    obtain ⟨h1, h2⟩ := hadd
    subst h1
    have hnot : t ∉ keys D.entries := by
      intro hin
      have := (HasToken_iff_mem_keys D t).mpr hin
      rw [hfresh] at this
      exact Bool.false_ne_true this
    refine ⟨h2.symm, ?_, ?_⟩
    · unfold Dict.Size
      rw [hent, length_assign, if_neg hnot]
    · intro u hu
      unfold Dict.HasToken Dict.Index
      rw [hent, lookup_assign_ne _ _ _ _ hu]
      exact ⟨rfl, rfl⟩

theorem Add_frame_witness :
    (New ["a", "b"]).HasToken "c" = false ∧
    (∃ D1, (New ["a", "b"]).Add "c" = some (D1, none)) ∧
    ∀ D1 err, (New ["a", "b"]).Add "c" = some (D1, err) →
      err = none ∧ D1.Size = (New ["a", "b"]).Size + 1 ∧
      ∀ u, u ≠ "c" → D1.HasToken u = (New ["a", "b"]).HasToken u ∧
        D1.Index u = (New ["a", "b"]).Index u :=
  ⟨by decide, (Add_frame (New ["a", "b"]) "c" (by decide)).1 (by decide),
    (Add_frame (New ["a", "b"]) "c" (by decide)).2⟩

/-! ## Dense assignment -/

/-- In every visiting order, `HasIdx(i)` is true exactly when `i` is among the stored
indices. -/
theorem HasIdx_iff_mem_values (D : Dict) (order : RangeOrder D) (i : Idx) :
    D.HasIdx order i = true ↔ i ∈ D.entries.map Prod.snd := by
  unfold Dict.HasIdx
  rw [List.any_eq_true, List.mem_map]
  constructor
  · rintro ⟨e, hmem, he⟩
    exact ⟨e, order.property.mem_iff.mp hmem, by simpa using he⟩
  · rintro ⟨e, hmem, he⟩
    exact ⟨e, order.property.mem_iff.mpr hmem, by simpa using he⟩

theorem AddSeq_of_FromFileLoop (ts : List String) (D0 D : Dict)
    (h : FromFileLoop D0 ts = some D) : ∃ errs, AddSeq D0 ts = some (D, errs) := by
  rw [FromFileLoop_eq_AddSeq] at h
  cases hs : AddSeq D0 ts with
  | none => rw [hs] at h; simp at h
  | some r =>
    obtain ⟨D1, errs⟩ := r
    rw [hs] at h
    simp only [Option.map_some', Option.some.injEq] at h
    subst h
    exact ⟨errs, rfl⟩

/-- A run of `Add` calls keeps the stored indices equal to the conversions of `0`, `1`, ...,
`Size() - 1`, in the order of insertion. -/
theorem AddSeq_values (ts : List String) : ∀ D : Dict, D.tokens.isSome = true →
    D.entries.map Prod.snd = (List.range D.Size).map (fun n : Nat => toIdx (n : Int)) →
    ∃ D1 errs, AddSeq D ts = some (D1, errs) ∧
      D1.entries.map Prod.snd = (List.range D1.Size).map (fun n : Nat => toIdx (n : Int)) := by
  induction ts with
  | nil => intro D _ hval; exact ⟨D, [], rfl, hval⟩
  | cons t rest ih =>
    intro D hmap hval
    obtain ⟨D1, err, hadd, hmap1, hcase⟩ := Add_step D t hmap
    have hval1 : D1.entries.map Prod.snd
        = (List.range D1.Size).map (fun n : Nat => toIdx (n : Int)) := by
      rcases hcase with ⟨_, _, heq⟩ | ⟨_, _, hent⟩
      · rw [heq]; exact hval
      · have hs : D1.Size = D.Size + 1 := by
          unfold Dict.Size
          rw [hent]
          simp
        rw [hs, hent, List.range_succ, List.map_append, List.map_append, hval]
        rfl
    obtain ⟨D2, errs, hseq, hval2⟩ := ih D1 hmap1 hval1
    exact ⟨D2, err :: errs, by simp [AddSeq, hadd, hseq], hval2⟩

theorem mem_values_iff_of_le (n : Nat) (hn : n ≤ 2147483648) (i : Int) :
    i ∈ (List.range n).map (fun k : Nat => toIdx (k : Int)) ↔ (0 : Int) ≤ i ∧ i < (n : Int) := by
  rw [List.mem_map]
  constructor
  · rintro ⟨k, hk, rfl⟩
    rw [List.mem_range] at hk
    rw [toIdx_of_lt k (by omega)]
    constructor
    · exact Int.ofNat_nonneg k
    · exact Int.ofNat_lt.mpr hk
  · rintro ⟨h0, h1⟩
    have hlt : i.toNat < n := by omega
    refine ⟨i.toNat, List.mem_range.mpr hlt, ?_⟩
    rw [toIdx_of_lt _ (by omega)]
    exact Int.toNat_of_nonneg h0

theorem nodup_values_of_le (n : Nat) (hn : n ≤ 2147483648) :
    ((List.range n).map (fun k : Nat => toIdx (k : Int))).Nodup := by
  apply List.Nodup.map_on _ (List.nodup_range n)
  intro x hx y hy hxy
  rw [List.mem_range] at hx hy
  rw [toIdx_of_lt x (by omega), toIdx_of_lt y (by omega)] at hxy
  exact_mod_cast hxy

/-- The dictionary built from the empty one by a run of `Add` calls: it is the one the loop of
`FromFile` builds, its size is the number of distinct tokens, and its stored indices are the
conversions of `0`, ..., `Size() - 1`. -/
theorem AddSeq_empty_spec (ts : List String) :
    ∃ D errs, AddSeq ⟨some GoMap.empty⟩ ts = some (D, errs) ∧
      FromFileLoop ⟨some GoMap.empty⟩ ts = some D ∧
      D.Size = distinctCount ts ∧
      D.entries.map Prod.snd = (List.range D.Size).map (fun n : Nat => toIdx (n : Int)) ∧
      (∀ t, lookup t D.entries =
        if t ∈ ts then some (toIdx (firstSeenRank ts t : Int)) else none) := by
  obtain ⟨D, errs, hseq, hval⟩ := AddSeq_values ts ⟨some GoMap.empty⟩ rfl rfl
  have hloop : FromFileLoop ⟨some GoMap.empty⟩ ts = some D := by
    rw [FromFileLoop_eq_AddSeq, hseq]
    rfl
  obtain ⟨D2, hloop2, _, hlook, hsize, _⟩ := FromFileLoop_spec ts
  rw [hloop] at hloop2
  have e : D = D2 := Option.some.inj hloop2
  subst e
  exact ⟨D, errs, hseq, hloop, hsize, hval, hlook⟩

theorem distinctCount_manyTokens (n : Nat) : distinctCount (manyTokens n) = n := by
  unfold distinctCount
  rw [List.toFinset_card_of_nodup (manyTokens_nodup n), manyTokens_length]

/-- C13, as stated, fails for the dictionary built by `2^31 + 1` `Add` calls with pairwise
distinct tokens (also the `FromFile` result for a file with these lines): its size is
`2147483649` and the last token holds index `Idx(2147483648) = -2147483648`, so
`HasIdx(-2147483648)` is true although the index is not in `0 .. Size() - 1`. -/
theorem AddSeq_index_wraps :
    ∃ D errs, AddSeq ⟨some GoMap.empty⟩ (manyTokens 2147483649) = some (D, errs) ∧
      FromFile (FileRead.opened (manyTokens 2147483649) none) = some (D, none) ∧
      D.Size = 2147483649 ∧
      D.Index (tokenA 2147483648) = (-2147483648, none) ∧
      ∀ order : RangeOrder D, D.HasIdx order (-2147483648) = true := by
  obtain ⟨D, errs, hseq, hloop, hsize, _, hlook⟩ := AddSeq_empty_spec (manyTokens 2147483649)
  have hmem : tokenA 2147483648 ∈ manyTokens 2147483649 := by
    rw [show (2147483649 : Nat) = 2147483648 + 1 from rfl, manyTokens_succ]
    simp
  have hr : firstSeenRank (manyTokens 2147483649) (tokenA 2147483648) = 2147483648 :=
    firstSeenRank_manyTokens 2147483648
  have hl : lookup (tokenA 2147483648) D.entries = some (-2147483648) := by
    rw [hlook, if_pos hmem, hr, show ((2147483648 : Nat) : Int) = 2147483648 from rfl,
      toIdx_two_pow_31]
  refine ⟨D, errs, hseq, FromFile_opened _ _ D hloop, ?_, Index_of_lookup _ _ _ hl, ?_⟩
  · rw [hsize, distinctCount_manyTokens]
  · intro order
    rw [HasIdx_iff_mem_values]
    exact List.mem_map.mpr ⟨_, mem_of_lookup_eq_some _ _ _ hl, rfl⟩

/-- C13 (amended): for every dictionary built from the empty dictionary purely by `Add` calls
in which at most `2^31` distinct tokens are added (which includes the `FromFile` result for a
file with at most `2^31` distinct lines), `HasIdx(i)` is true if and only if
`0 <= i < Size()`, every such index is held by exactly one token, and every stored index is
such an index. -/
theorem AddSeq_dense (ts : List String) (hbound : distinctCount ts ≤ 2147483648) :
    ∃ D errs, AddSeq ⟨some GoMap.empty⟩ ts = some (D, errs) ∧
      (∀ scanErr, FromFile (FileRead.opened ts scanErr) = some (D, none)) ∧
      (∀ (order : RangeOrder D) (i : Idx),
        D.HasIdx order i = true ↔ (0 : Int) ≤ i ∧ i < (D.Size : Int)) ∧
      (∀ i : Idx, (0 : Int) ≤ i → i < (D.Size : Int) →
        ∃ t, D.Index t = (i, none) ∧ ∀ u, D.Index u = (i, none) → u = t) ∧
      (∀ t (i : Idx), D.Index t = (i, none) → (0 : Int) ≤ i ∧ i < (D.Size : Int)) := by
  obtain ⟨D, errs, hseq, hloop, hsize, hval, _⟩ := AddSeq_empty_spec ts
  have hle : D.Size ≤ 2147483648 := by rw [hsize]; exact hbound
  have hmemv : ∀ i : Idx, i ∈ D.entries.map Prod.snd ↔ (0 : Int) ≤ i ∧ i < (D.Size : Int) := by
    intro i
    rw [hval]
    exact mem_values_iff_of_le D.Size hle i
  have hnd : (D.entries.map Prod.snd).Nodup := by
    rw [hval]
    exact nodup_values_of_le D.Size hle
  refine ⟨D, errs, hseq, fun scanErr => FromFile_opened _ _ D hloop, ?_, ?_, ?_⟩
  · intro order i
    rw [HasIdx_iff_mem_values, hmemv]
  · intro i h0 h1
    obtain ⟨e, he, hei⟩ := List.mem_map.mp ((hmemv i).mpr ⟨h0, h1⟩)
    obtain ⟨t, j⟩ := e
    simp only at hei
    subst hei
    refine ⟨t, (Index_eq_iff_mem D t j).mpr he, ?_⟩
    intro u hu
    have hu2 := (Index_eq_iff_mem D u j).mp hu
    have := List.inj_on_of_nodup_map hnd hu2 he rfl
    exact congrArg Prod.fst this
  · intro t i hi
    have hm := (Index_eq_iff_mem D t i).mp hi
    exact (hmemv i).mp (List.mem_map.mpr ⟨(t, i), hm, rfl⟩)

theorem AddSeq_dense_witness :
    distinctCount ["x", "y", "x"] ≤ 2147483648 ∧
    ∃ D errs, AddSeq ⟨some GoMap.empty⟩ ["x", "y", "x"] = some (D, errs) ∧
      (∀ scanErr, FromFile (FileRead.opened ["x", "y", "x"] scanErr) = some (D, none)) ∧
      (∀ (order : RangeOrder D) (i : Idx),
        D.HasIdx order i = true ↔ (0 : Int) ≤ i ∧ i < (D.Size : Int)) ∧
      (∀ i : Idx, (0 : Int) ≤ i → i < (D.Size : Int) →
        ∃ t, D.Index t = (i, none) ∧ ∀ u, D.Index u = (i, none) → u = t) ∧
      (∀ t (i : Idx), D.Index t = (i, none) → (0 : Int) ≤ i ∧ i < (D.Size : Int)) :=
  ⟨by decide, AddSeq_dense ["x", "y", "x"] (by decide)⟩

/-! ## Errors of `FromFile` -/

/-- C14 fails on the code. An error of `os.Open` is returned, but `FromFile` never asks the
scanner for its error: whenever the file opens, whatever stopped the scan, the result is the
dictionary of the lines read so far with a nil error. For one line `a` followed by a read
failure (for instance a line too long for the scanner) the result is the dictionary with `a`
at 0 and a nil error. -/
theorem FromFile_drops_scan_error :
    (∀ msg, FromFile (FileRead.openError msg) = some (Dict.mk none, some msg)) ∧
    (∀ lines err, ∃ D, FromFile (FileRead.opened lines (some err)) = some (D, none)) ∧
    ∃ D, FromFile (FileRead.opened ["a"] (some "bufio.Scanner: token too long"))
        = some (D, none) ∧
      D.Size = 1 ∧ D.Index "a" = (0, none) := by
  refine ⟨fun _ => rfl, ?_, _, rfl, by decide, by decide⟩
  intro lines err
  obtain ⟨D, _, _, hloop, _⟩ := AddSeq_empty_spec lines
  exact ⟨D, FromFile_opened _ _ D hloop⟩

/-! ## Sign of the stored indices -/

theorem mem_assign (k : String) (v : Idx) (l : List (String × Idx)) (e : String × Idx)
    (h : e ∈ assign k v l) : e = (k, v) ∨ e ∈ l := by
  induction l with
  | nil =>
    simp only [assign, List.mem_singleton] at h
    exact Or.inl h
  | cons e1 rest ih =>
    obtain ⟨k1, v1⟩ := e1
    by_cases hk : k1 = k
    · simp only [assign, if_pos hk, List.mem_cons] at h
      rcases h with h | h
      · exact Or.inl h
      · exact Or.inr (List.mem_cons_of_mem _ h)
    · simp only [assign, if_neg hk, List.mem_cons] at h
      rcases h with h | h
      · exact Or.inr (h ▸ List.mem_cons_self _ _)
      · rcases ih h with h2 | h2
        · exact Or.inl h2
        · exact Or.inr (List.mem_cons_of_mem _ h2)

/-- Every index stored by `New T` is the conversion of a position of `T`. -/
theorem New_values (T : List String) :
    ∀ e ∈ (New T).entries, ∃ j : Nat, j < T.length ∧ e.2 = toIdx (j : Int) := by
  induction T using List.reverseRecOn with
  | nil => intro e he; simp [New, Dict.entries, NewLoop, GoMap.empty] at he
  | append_singleton T x ih =>
    intro e he
    rw [New_snoc_entries] at he
    rcases mem_assign _ _ _ _ he with h | h
    · exact ⟨T.length, by simp, by rw [h]⟩
    · obtain ⟨j, hj, hv⟩ := ih e h
      exact ⟨j, by simp; omega, hv⟩

theorem toIdx_nonneg_of_lt (n : Nat) (h : n < 2147483648) : (0 : Int) ≤ toIdx (n : Int) := by
  rw [toIdx_of_lt n h]
  exact Int.ofNat_nonneg n

/-- In a dictionary obtained without a position or size reaching `2^31`, no stored index is
negative. -/
theorem ObtainableInRange_nonneg (D : Dict) (h : ObtainableInRange D) :
    ∀ e ∈ D.entries, (0 : Int) ≤ e.2 := by
  induction h with
  | new T hlen =>
    intro e he
    obtain ⟨j, hj, hv⟩ := New_values T e he
    rw [hv]
    exact toIdx_nonneg_of_lt j (by omega)
  | fromFile f D err hf hsize =>
    intro e he
    cases f with
    | openError msg =>
      simp only [FromFile, Option.some.injEq, Prod.mk.injEq] at hf
      rw [← hf.1] at he
      simp [Dict.entries] at he
    | opened lines scanErr =>
      obtain ⟨D0, _, _, hloop, _, hval, _⟩ := AddSeq_empty_spec lines
      rw [FromFile_opened lines scanErr D0 hloop] at hf
      simp only [Option.some.injEq, Prod.mk.injEq] at hf
      have e0 : D0 = D := hf.1
      subst e0
      have hm : e.2 ∈ D0.entries.map Prod.snd := List.mem_map.mpr ⟨e, he, rfl⟩
      rw [hval] at hm
      exact ((mem_values_iff_of_le D0.Size hsize e.2).mp hm).1
  | add D D1 t err _ hsize hadd ih =>
    intro e he
    cases hp : D.HasToken t with
    | true =>
      rw [Add_of_present D t hp] at hadd
      simp only [Option.some.injEq, Prod.mk.injEq] at hadd
      rw [← hadd.1] at he
      exact ih e he
    | false =>
      have hmap : D.tokens.isSome = true := by
        cases hm : D.tokens with
        | none => simp [Dict.Add, hp, hm] at hadd
        | some m => rfl
      obtain ⟨D2, hadd2, hent, _⟩ := Add_entries_of_fresh D t hmap hp
      rw [hadd2] at hadd
      simp only [Option.some.injEq, Prod.mk.injEq] at hadd
      rw [← hadd.1, hent] at he
      rcases mem_assign _ _ _ _ he with h | h
      · rw [h]
        exact toIdx_nonneg_of_lt D.Size hsize
      · exact ih e h

/-- C15, as stated, fails for `New` on `2^31 + 1` pairwise distinct tokens: the token at
position `2^31` is present and `Index` returns `-2147483648` for it, a negative index. -/
theorem Index_negative_for_present :
    Obtainable (New (manyTokens 2147483649)) ∧
    (New (manyTokens 2147483649)).HasToken (tokenA 2147483648) = true ∧
    (New (manyTokens 2147483649)).Index (tokenA 2147483648) = (-2147483648, none) ∧
    ((New (manyTokens 2147483649)).Index (tokenA 2147483648)).1 < 0 := by
  have hd := manyTokens_nodup 2147483649
  have hi := manyTokens_getElem? 2147483649 2147483648 (by omega)
  have hl := lookup_New_last _ _ _ hi (last_of_nodup _ _ _ hd hi)
  rw [show ((2147483648 : Nat) : Int) = 2147483648 from rfl, toIdx_two_pow_31] at hl
  have hidx := Index_of_lookup _ _ _ hl
  refine ⟨Obtainable.new _, ?_, hidx, ?_⟩
  · unfold Dict.HasToken
    rw [hl]
    rfl
  · rw [hidx]
    decide

/-- C15 (amended): in every dictionary obtainable through `New`, `FromFile` and `Add` without a
list position or a size of `2^31` or more being converted to `Idx` (`New` on at most `2^31`
tokens, `FromFile` yielding at most `2^31` tokens, `Add` on fewer than `2^31` tokens), every
stored index is non-negative, so `Index(t)` returns a negative value if and only if `t` is
absent. -/
theorem Index_negative_iff_absent (D : Dict) (h : ObtainableInRange D) (t : String) :
    (∀ u i, D.Index u = (i, none) → (0 : Int) ≤ i) ∧
    ((D.Index t).1 < 0 ↔ D.HasToken t = false) := by
  have hnn := ObtainableInRange_nonneg D h
  constructor
  · intro u i hu
    exact hnn (u, i) ((Index_eq_iff_mem D u i).mp hu)
  · unfold Dict.HasToken
    cases hl : lookup t D.entries with
    | none =>
      simp only [Dict.Index, hl, Option.isSome_none, iff_true]
      decide
    | some i =>
      have h0 := hnn (t, i) (mem_of_lookup_eq_some t i D.entries hl)
      simp only [Dict.Index, hl, Option.isSome_some, Bool.true_eq_false, iff_false, not_lt]
      exact h0

theorem Index_negative_iff_absent_witness :
    ObtainableInRange (New ["a", "b"]) ∧
    (∀ u i, (New ["a", "b"]).Index u = (i, none) → (0 : Int) ≤ i) ∧
    (((New ["a", "b"]).Index "zz").1 < 0 ↔ (New ["a", "b"]).HasToken "zz" = false) :=
  ⟨ObtainableInRange.new _ (by decide),
    Index_negative_iff_absent (New ["a", "b"]) (ObtainableInRange.new _ (by decide)) "zz"⟩

/-! ## Bulk and incremental construction -/

theorem Dict_eq_of_entries (D D2 : Dict) (h1 : D.tokens.isSome = true)
    (h2 : D2.tokens.isSome = true) (he : D.entries = D2.entries) : D = D2 := by
  obtain ⟨tk⟩ := D
  obtain ⟨tk2⟩ := D2
  cases tk with
  | none => simp at h1
  | some m =>
    cases tk2 with
    | none => simp at h2
    | some m2 =>
      obtain ⟨e1, p1⟩ := m
      obtain ⟨e2, p2⟩ := m2
      simp only [Dict.entries] at he
      subst he
      rfl

/-- On a list without duplicates, the loop of `FromFile` builds the entries of `New`. -/
theorem FromFileLoop_of_nodup (T : List String) (hd : T.Nodup) :
    ∃ D, FromFileLoop ⟨some GoMap.empty⟩ T = some D ∧ D.tokens.isSome = true ∧
      D.entries = (New T).entries := by
  induction T using List.reverseRecOn with
  | nil => exact ⟨⟨some GoMap.empty⟩, rfl, rfl, rfl⟩
  | append_singleton T x ih =>
    have hd2 : T.Nodup ∧ x ∉ T := by
      have := List.nodup_append.mp hd
      refine ⟨this.1, fun hx => ?_⟩
      exact this.2.2 hx (List.mem_singleton_self x)
    obtain ⟨D, hloop, hmap, hent⟩ := ih hd2.1
    have hfresh : D.HasToken x = false := by
      rw [← Bool.not_eq_true, HasToken_iff_mem_keys, hent, New_keys_mem]
      exact hd2.2
    obtain ⟨D1, hadd, hent1, hmap1⟩ := Add_entries_of_fresh D x hmap hfresh
    refine ⟨D1, ?_, hmap1, ?_⟩
    · rw [FromFileLoop_snoc, hloop]
      simp [hadd]
    · have hs : D.Size = T.length := by
        have h1 : D.Size = (New T).Size := by unfold Dict.Size; rw [hent]
        rw [h1, New_Size, List.toFinset_card_of_nodup hd2.1]
      rw [hent1, hs, hent, New_snoc_entries]

/-- C16: for every list `T` of pairwise distinct tokens, the dictionary obtained from the empty
dictionary by calling `Add` on each element of `T` in order, which is also the result of
`FromFile` for a file whose lines are `T`, is the dictionary `New(T)`: same size, and for every
token the same presence and the same index. -/
theorem New_eq_AddSeq (T : List String) (hd : T.Nodup) :
    ∃ D errs, AddSeq ⟨some GoMap.empty⟩ T = some (D, errs) ∧
      FromFile (FileRead.opened T none) = some (D, none) ∧
      D = New T ∧ D.Size = (New T).Size ∧
      ∀ t, D.HasToken t = (New T).HasToken t ∧ D.Index t = (New T).Index t := by
  obtain ⟨D, hloop, hmap, hent⟩ := FromFileLoop_of_nodup T hd
  obtain ⟨errs, hseq⟩ := AddSeq_of_FromFileLoop T _ D hloop
  have e : D = New T := Dict_eq_of_entries D (New T) hmap (New_tokens_isSome T) hent
  refine ⟨D, errs, hseq, FromFile_opened _ _ D hloop, e, ?_, ?_⟩
  · rw [e]
  · intro t
    rw [e]
    exact ⟨rfl, rfl⟩

theorem New_eq_AddSeq_witness :
    ["the", "quick", "fox"].Nodup ∧
    ∃ D errs, AddSeq ⟨some GoMap.empty⟩ ["the", "quick", "fox"] = some (D, errs) ∧
      FromFile (FileRead.opened ["the", "quick", "fox"] none) = some (D, none) ∧
      D = New ["the", "quick", "fox"] ∧ D.Size = (New ["the", "quick", "fox"]).Size ∧
      ∀ t, D.HasToken t = (New ["the", "quick", "fox"]).HasToken t ∧
        D.Index t = (New ["the", "quick", "fox"]).Index t :=
  ⟨by decide, New_eq_AddSeq ["the", "quick", "fox"] (by decide)⟩

/-! ## Tokens without a percent sign -/

theorem doPrintf_of_no_percent (fuel : Nat) (cs : List Char) (h : Char.ofNat 37 ∉ cs) :
    doPrintf (fuel + 1) cs = cs := by
  have hall : ∀ c ∈ cs, (c != Char.ofNat 37) = true := by
    intro c hc
    simp only [bne_iff_ne, ne_eq]
    intro e
    exact h (e ▸ hc)
  have hd : cs.dropWhile (fun c => c != Char.ofNat 37) = [] :=
    List.dropWhile_eq_nil_iff.mpr hall
  have ht : cs.takeWhile (fun c => c != Char.ofNat 37) = cs :=
    List.takeWhile_eq_self_iff.mpr hall
  unfold doPrintf
  rw [hd, ht]

theorem Sprintf_of_no_percent (s : String) (h : Char.ofNat 37 ∉ s.data) : Sprintf s = s := by
  unfold Sprintf
  rw [doPrintf_of_no_percent _ _ h]

theorem scan_of_mem (idx : Idx) (l : List (String × Idx)) (k : String) (h : (k, idx) ∈ l) :
    ∃ k1, scan idx l = some k1 ∧ (k1, idx) ∈ l := by
  induction l with
  | nil => simp at h
  | cons e rest ih =>
    obtain ⟨k0, v0⟩ := e
    by_cases hv : v0 = idx
    · subst hv
      exact ⟨k0, by simp [scan], List.mem_cons_self _ _⟩
    · have hmem : (k, idx) ∈ rest := by
        rcases List.mem_cons.mp h with h1 | h1
        · exact absurd (congrArg Prod.snd h1).symm hv
        · exact h1
      obtain ⟨k1, hs, hm⟩ := ih hmem
      exact ⟨k1, by simp [scan, hv, hs], List.mem_cons_of_mem _ hm⟩

/-- C17: `Token` returns the matched key through `fmt.Sprintf` with no operands. For every
dictionary whose indices are pairwise distinct and every present token `t` without a `%`
character, `Token(Index(t))` is `t` itself, whatever the order in which the loop visits the
map. -/
theorem Token_Index_verbatim (D : Dict) (t : String)
    (huniq : ∀ s u, D.HasToken s = true → D.HasToken u = true →
      (D.Index s).1 = (D.Index u).1 → s = u)
    (hpresent : D.HasToken t = true) (hpct : Char.ofNat 37 ∉ t.data) :
    (∀ (order : RangeOrder D) (idx : Idx),
      D.Token order idx = Sprintf ((scan idx order.val).getD "")) ∧
    ∀ order : RangeOrder D, D.Token order (D.Index t).1 = t := by
  refine ⟨fun _ _ => rfl, ?_⟩
  intro order
  have hsome : (lookup t D.entries).isSome = true := hpresent
  obtain ⟨i, hl⟩ := Option.isSome_iff_exists.mp hsome
  have hidx : D.Index t = (i, none) := Index_of_lookup D t i hl
  have hmem : (t, i) ∈ order.val :=
    order.property.mem_iff.mpr (mem_of_lookup_eq_some t i D.entries hl)
  obtain ⟨k1, hs, hk1⟩ := scan_of_mem i order.val t hmem
  have hk1e : (k1, i) ∈ D.entries := order.property.mem_iff.mp hk1
  have hk1i : D.Index k1 = (i, none) := (Index_eq_iff_mem D k1 i).mpr hk1e
  have hk1p : D.HasToken k1 = true :=
    (HasToken_iff_mem_keys D k1).mpr (List.mem_map.mpr ⟨(k1, i), hk1e, rfl⟩)
  have e : k1 = t := huniq k1 t hk1p hpresent (by rw [hk1i, hidx])
  subst e
  unfold Dict.Token
  rw [hidx, hs]
  exact Sprintf_of_no_percent k1 hpct

theorem Token_Index_verbatim_witness :
    (∀ s u, (New ["cat", "dog"]).HasToken s = true → (New ["cat", "dog"]).HasToken u = true →
      ((New ["cat", "dog"]).Index s).1 = ((New ["cat", "dog"]).Index u).1 → s = u) ∧
    (New ["cat", "dog"]).HasToken "dog" = true ∧ Char.ofNat 37 ∉ "dog".data ∧
    ∀ order : RangeOrder (New ["cat", "dog"]),
      (New ["cat", "dog"]).Token order ((New ["cat", "dog"]).Index "dog").1 = "dog" :=
  have huniq : ∀ s u, (New ["cat", "dog"]).HasToken s = true →
      (New ["cat", "dog"]).HasToken u = true →
      ((New ["cat", "dog"]).Index s).1 = ((New ["cat", "dog"]).Index u).1 → s = u := by
    intro s u hs hu h
    have key : ∀ w, (New ["cat", "dog"]).HasToken w = true →
        (w = "cat" ∧ ((New ["cat", "dog"]).Index w).1 = 0) ∨
        (w = "dog" ∧ ((New ["cat", "dog"]).Index w).1 = 1) := by
      intro w hw
      have hm := (New_keys_mem ["cat", "dog"] w).mp ((HasToken_iff_mem_keys _ w).mp hw)
      simp only [List.mem_cons, List.mem_singleton, List.not_mem_nil, or_false] at hm
      rcases hm with e | e
      · subst e; exact Or.inl ⟨rfl, by decide⟩
      · subst e; exact Or.inr ⟨rfl, by decide⟩
    rcases key s hs with ⟨e1, i1⟩ | ⟨e1, i1⟩ <;> rcases key u hu with ⟨e2, i2⟩ | ⟨e2, i2⟩
    · rw [e1, e2]
    · rw [i1, i2] at h; exact absurd h (by decide)
    · rw [i1, i2] at h; exact absurd h (by decide)
    · rw [e1, e2]
  ⟨huniq, by decide, by decide,
    (Token_Index_verbatim (New ["cat", "dog"]) "dog" huniq (by decide) (by decide)).2⟩

end Vocab
